import Mathlib

/-!
Verification development for `scripts/lint.py` (the capa rule linter).

Python strings are modelled as `List Char` where character-level
operations matter (indexing, `endswith`), and as Lean `String` where
only equality and concatenation matter.  Python functions that can
raise are modelled with `Option`/`Except`.
-/

/-- Python `s.endswith(t)`: `t` is a suffix of `s`. -/
def pyEndsWith (s t : List Char) : Bool := t.isSuffixOf s

/-- The newline character, Python `"\n"`. -/
def newlineChar : Char := Char.ofNat 10

/-- `FormatSingleEmptyLineEOF.check_rule` (scripts/lint.py lines 882-885):
returns `False` (pass) when the rule definition ends with `"\n"` but not
with `"\n\n"`, otherwise `True` (violation). -/
def FormatSingleEmptyLineEOF.checkRule (defn : List Char) : Bool :=
  if pyEndsWith defn [newlineChar] && !(pyEndsWith defn [newlineChar, newlineChar]) then
    false
  else
    true

/-- Spec-side notion for C9: the source text ends with exactly one
trailing newline, i.e. it is some text that does not itself end in a
newline, followed by a single newline. -/
def endsWithExactlyOneNewline (s : List Char) : Prop :=
  ∃ t, s = t ++ [newlineChar] ∧ ¬ [newlineChar] <:+ t

theorem pyEndsWith_iff (s t : List Char) : pyEndsWith s t = true ↔ t <:+ s := by
  simp [pyEndsWith, List.isSuffixOf_iff_suffix]

/-- C9: the end-of-file format check passes (returns `false`) exactly when
the rule source text ends with exactly one trailing newline; in particular
a text ending in two newlines fails, a text with no trailing newline
fails, and the same content with exactly one trailing newline passes. -/
theorem formatSingleEmptyLineEOF_pass_iff_one_trailing_newline :
    (∀ d : List Char, FormatSingleEmptyLineEOF.checkRule d = false ↔ endsWithExactlyOneNewline d) ∧
    FormatSingleEmptyLineEOF.checkRule ("abc)\n\n".data) = true ∧
    FormatSingleEmptyLineEOF.checkRule ("abc)".data) = true ∧
    FormatSingleEmptyLineEOF.checkRule ("abc)\n".data) = false := by
  refine ⟨?_, by decide, by decide, by decide⟩
  intro d
  unfold FormatSingleEmptyLineEOF.checkRule
  constructor
  · intro h
    by_cases h1 : pyEndsWith d [newlineChar] = true
    · by_cases h2 : pyEndsWith d [newlineChar, newlineChar] = true
      · simp [h1, h2] at h
      · rcases (pyEndsWith_iff d [newlineChar]).mp h1 with ⟨t, ht⟩
        refine ⟨t, ht.symm, ?_⟩
        rintro ⟨u, hu⟩
        apply h2
        rw [pyEndsWith_iff]
        refine ⟨u, ?_⟩
        calc u ++ [newlineChar, newlineChar]
            = (u ++ [newlineChar]) ++ [newlineChar] := by simp
          _ = t ++ [newlineChar] := by rw [hu]
          _ = d := ht
    · simp [h1] at h
  · rintro ⟨t, rfl, hnot⟩
    have h1 : pyEndsWith (t ++ [newlineChar]) [newlineChar] = true := by
      rw [pyEndsWith_iff]; exact ⟨t, rfl⟩
    have h2 : ¬ pyEndsWith (t ++ [newlineChar]) [newlineChar, newlineChar] = true := by
      rw [pyEndsWith_iff]
      rintro ⟨u, hu⟩
      apply hnot
      have hu2 : (u ++ [newlineChar]) ++ [newlineChar] = t ++ [newlineChar] := by
        rw [← hu]; simp
      exact ⟨u, List.append_cancel_right hu2⟩
    simp [h1, h2]

/-- Membership in Python `string.ascii_uppercase`. -/
def isAsciiUppercase (c : Char) : Bool := 65 ≤ c.toNat && c.toNat ≤ 90

/-- `NameCasing.check_rule` (scripts/lint.py lines 90-91):
`rule.name[0] in string.ascii_uppercase and rule.name[1] not in string.ascii_uppercase`.
Out-of-range indexing raises `IndexError` (modelled as `none`); Python
`and` short-circuits, so `rule.name[1]` is read only when the first
conjunct is truthy. -/
def NameCasing.checkRule (name : List Char) : Option Bool :=
  match name.get? 0 with
  | none => none
  | some c0 =>
    if isAsciiUppercase c0 then
      match name.get? 1 with
      | none => none
      | some c1 => some (!isAsciiUppercase c1)
    else
      some false

/-- C10 counterexample: a rule name of length exactly 1 whose first
character is lowercase yields the defined result `False` (no index
error), refuting both "unconditionally reads the second character" and
"length exactly 1 implies the index access is out of bounds". -/
theorem nameCasing_length_one_defined_cex :
    NameCasing.checkRule ['a'] = some false ∧ (['a'] : List Char).length = 1 := by
  exact ⟨rfl, rfl⟩

/-- C10 (amended): the casing check reads the second character only when
the first character is an uppercase ASCII letter; for a name of length
exactly 1, the index access is out of bounds precisely when the first
character is uppercase; for every name of length at least 2 the check is
total and returns true exactly when the first character is an uppercase
ASCII letter and the second is not. -/
theorem nameCasing_amended (name : List Char) :
    (2 ≤ name.length →
      ∃ c0 c1, name.get? 0 = some c0 ∧ name.get? 1 = some c1 ∧
        NameCasing.checkRule name = some (isAsciiUppercase c0 && !isAsciiUppercase c1)) ∧
    (name.length = 1 →
      (NameCasing.checkRule name = none ↔ ∃ c0, name = [c0] ∧ isAsciiUppercase c0 = true)) := by
  constructor
  · intro hlen
    match name, hlen with
    | c0 :: c1 :: rest, _ =>
      refine ⟨c0, c1, rfl, rfl, ?_⟩
      by_cases h : isAsciiUppercase c0 = true
      · simp [NameCasing.checkRule, h]
      · have h0 : isAsciiUppercase c0 = false := Bool.eq_false_iff.mpr h
        simp [NameCasing.checkRule, h0]
  · intro hlen
    match name, hlen with
    | [c0], _ =>
      by_cases h : isAsciiUppercase c0 = true
      · simp [NameCasing.checkRule, h]
      · have h0 : isAsciiUppercase c0 = false := Bool.eq_false_iff.mpr h
        simp [NameCasing.checkRule, h0]

/-- C10 witness: instantiating the amended theorem at the concrete
two-character name `Ab` and at the one-character name `A`. -/
theorem nameCasing_amended_witness :
    (∃ c0 c1, (['A', 'b'] : List Char).get? 0 = some c0 ∧
      (['A', 'b'] : List Char).get? 1 = some c1 ∧
      NameCasing.checkRule ['A', 'b'] = some (isAsciiUppercase c0 && !isAsciiUppercase c1)) ∧
    (NameCasing.checkRule ['A'] = none ↔ ∃ c0, (['A'] : List Char) = [c0] ∧ isAsciiUppercase c0 = true) := by
  exact ⟨(nameCasing_amended ['A', 'b']).1 (by decide),
    (nameCasing_amended ['A']).2 (by decide)⟩

/-- Scope declarations of a rule: `rule.scopes.static` / `rule.scopes.dynamic`,
each `none` when absent (Python `None`, falsy). -/
structure Scopes where
  static : Option String
  dynamic : Option String

/-- The attributes of a parsed rule used by `RuleDependencyScopeMismatch`:
its scope declarations and the result of `rule.is_subscope_rule()`. -/
structure ScopedRule where
  scopes : Scopes
  isSubscopeRule : Bool

/-- `RuleDependencyScopeMismatch._is_static_scope_compatible`
(scripts/lint.py lines 523-541).  `subcompat` stands for
`capa.rules.is_subscope_compatible`, which lives outside this file's
source; it is passed in as a parameter.  The `assert` on line 540 firing
is modelled as `none`. -/
def RuleDependencyScopeMismatch.isStaticScopeCompatible
    (subcompat : Option String → String → Bool) (parent child : ScopedRule) : Option Bool :=
  if parent.scopes.static.isSome && child.scopes.static.isNone && child.isSubscopeRule then
    some true
  else if parent.scopes.static.isSome && child.scopes.static.isNone then
    -- "This is not really ok, but we can't really be sure here ...
    --  Assume for now it is not."
    some true
  else
    match child.scopes.static with
    | none => none
    | some cs => some (subcompat parent.scopes.static cs)

/-- `RuleDependencyScopeMismatch._is_dynamic_scope_compatible`
(scripts/lint.py lines 543-561), mirror image of the static variant. -/
def RuleDependencyScopeMismatch.isDynamicScopeCompatible
    (subcompat : Option String → String → Bool) (parent child : ScopedRule) : Option Bool :=
  if parent.scopes.dynamic.isSome && child.scopes.dynamic.isNone && child.isSubscopeRule then
    some true
  else if parent.scopes.dynamic.isSome && child.scopes.dynamic.isNone then
    some true
  else
    match child.scopes.dynamic with
    | none => none
    | some cs => some (subcompat parent.scopes.dynamic cs)

/-- The per-dependency loop body of `RuleDependencyScopeMismatch.check_rule`
(scripts/lint.py lines 496-521), with the dependency rules (already
resolved against the collection) passed as a list.  Returns `some true`
at the first incompatible dependency, `some false` when none is found. -/
def RuleDependencyScopeMismatch.checkRule
    (sc dc : Option String → String → Bool) (parent : ScopedRule) :
    List ScopedRule → Option Bool
  | [] => some false
  | dep :: rest =>
    if parent.scopes.static.isSome then
      match RuleDependencyScopeMismatch.isStaticScopeCompatible sc parent dep with
      | none => none
      | some compatS =>
        if !compatS then some true
        else if parent.scopes.dynamic.isSome then
          match RuleDependencyScopeMismatch.isDynamicScopeCompatible dc parent dep with
          | none => none
          | some compatD =>
            if !compatD then some true
            else RuleDependencyScopeMismatch.checkRule sc dc parent rest
        else RuleDependencyScopeMismatch.checkRule sc dc parent rest
    else if parent.scopes.dynamic.isSome then
      match RuleDependencyScopeMismatch.isDynamicScopeCompatible dc parent dep with
      | none => none
      | some compatD =>
        if !compatD then some true
        else RuleDependencyScopeMismatch.checkRule sc dc parent rest
    else RuleDependencyScopeMismatch.checkRule sc dc parent rest

/-- C2: when the parent declares a static (resp. dynamic) scope and the
dependency lacks a declared static (resp. dynamic) scope, the respective
compatibility predicate returns `some true` (for any subscope-compatibility
table and whether or not the child is a subscope rule), and a dependency
lacking both scopes never triggers the scope-mismatch violation. -/
theorem ruleDependencyScopeMismatch_missing_child_scope_compatible
    (sc dc : Option String → String → Bool) (parent child : ScopedRule) :
    (parent.scopes.static.isSome = true → child.scopes.static = none →
      RuleDependencyScopeMismatch.isStaticScopeCompatible sc parent child = some true) ∧
    (parent.scopes.dynamic.isSome = true → child.scopes.dynamic = none →
      RuleDependencyScopeMismatch.isDynamicScopeCompatible dc parent child = some true) ∧
    (child.scopes.static = none → child.scopes.dynamic = none →
      ∀ rest, RuleDependencyScopeMismatch.checkRule sc dc parent (child :: rest) =
        RuleDependencyScopeMismatch.checkRule sc dc parent rest) := by
  refine ⟨?_, ?_, ?_⟩
  · intro hp hc
    by_cases hs : child.isSubscopeRule = true <;>
      simp [RuleDependencyScopeMismatch.isStaticScopeCompatible, hp, hc, hs]
  · intro hp hc
    by_cases hs : child.isSubscopeRule = true <;>
      simp [RuleDependencyScopeMismatch.isDynamicScopeCompatible, hp, hc, hs]
  · intro hcs hcd rest
    by_cases hp : parent.scopes.static.isSome = true
    · by_cases hpd : parent.scopes.dynamic.isSome = true <;>
        simp [RuleDependencyScopeMismatch.checkRule, hp, hpd,
          RuleDependencyScopeMismatch.isStaticScopeCompatible,
          RuleDependencyScopeMismatch.isDynamicScopeCompatible, hcs, hcd]
    · by_cases hpd : parent.scopes.dynamic.isSome = true <;>
        simp [RuleDependencyScopeMismatch.checkRule, hp, hpd,
          RuleDependencyScopeMismatch.isDynamicScopeCompatible, hcs, hcd]

/-- C2 witness: a concrete parent scoped `function`/`process` and a
concrete scope-less dependency, in both subscope and non-subscope form. -/
theorem ruleDependencyScopeMismatch_missing_child_scope_compatible_witness :
    (RuleDependencyScopeMismatch.isStaticScopeCompatible (fun _ _ => false)
      ⟨⟨some "function", some "process"⟩, false⟩ ⟨⟨none, none⟩, true⟩ = some true) ∧
    (RuleDependencyScopeMismatch.isDynamicScopeCompatible (fun _ _ => false)
      ⟨⟨some "function", some "process"⟩, false⟩ ⟨⟨none, none⟩, false⟩ = some true) ∧
    (RuleDependencyScopeMismatch.checkRule (fun _ _ => false) (fun _ _ => false)
      ⟨⟨some "function", some "process"⟩, false⟩ [⟨⟨none, none⟩, false⟩] =
      RuleDependencyScopeMismatch.checkRule (fun _ _ => false) (fun _ _ => false)
      ⟨⟨some "function", some "process"⟩, false⟩ []) := by
  refine ⟨?_, ?_, ?_⟩
  · exact (ruleDependencyScopeMismatch_missing_child_scope_compatible
      (fun _ _ => false) (fun _ _ => false)
      ⟨⟨some "function", some "process"⟩, false⟩ ⟨⟨none, none⟩, true⟩).1 rfl rfl
  · exact (ruleDependencyScopeMismatch_missing_child_scope_compatible
      (fun _ _ => false) (fun _ _ => false)
      ⟨⟨some "function", some "process"⟩, false⟩ ⟨⟨none, none⟩, false⟩).2.1 rfl rfl
  · exact (ruleDependencyScopeMismatch_missing_child_scope_compatible
      (fun _ _ => false) (fun _ _ => false)
      ⟨⟨some "function", some "process"⟩, false⟩ ⟨⟨none, none⟩, false⟩).2.2 rfl rfl []

/-- Statement tree of a rule (§3 of the data model; the `capa.engine`
node kinds consumed by the structural lint passes): `And`, `Or`, `Not`,
`Some` (with its count; `count = 0` is the `optional` alias) and leaf
features (identified here by a string key, which is all the structural
passes inspect). -/
inductive Node where
  | and : List Node → Node
  | or : List Node → Node
  | not : Node → Node
  | some : Nat → List Node → Node
  | feature : String → Node

/-- `statement.get_children()`: children in order; `Not` has exactly one
child, leaves have none. -/
def Node.getChildren : Node → List Node
  | .and cs => cs
  | .or cs => cs
  | .not c => [c]
  | .some _ cs => cs
  | .feature _ => []

/-- `isinstance(x, capa.engine.Statement)`: every combinator is a
statement, a leaf feature is not. -/
def Node.isStatement : Node → Bool
  | .feature _ => false
  | _ => true

/-- `isinstance(x, capa.engine.And)`. -/
def Node.isAnd : Node → Bool
  | .and _ => true
  | _ => false

/-- `isinstance(x, capa.engine.Some) and x.count == 0`. -/
def Node.isSome0 : Node → Bool
  | .some 0 _ => true
  | _ => false

/-- `len(children) == 1 and isinstance(children[0], capa.engine.Statement)`. -/
def hasSingleStatementChild : List Node → Bool
  | [c] => c.isStatement
  | _ => false

mutual
/-- The recursive helper `rec` of
`StatementWithSingleChildStatement.check_rule` (scripts/lint.py lines
422-429): only `And`/`Or` nodes are inspected, and only their children
are recursed into (children of `Not`/`Some` nodes are never visited). -/
def singleChildRec : Bool → Node → Bool
  | isRoot, .and cs => (!isRoot && hasSingleStatementChild cs) || singleChildRecList cs
  | isRoot, .or cs => (!isRoot && hasSingleStatementChild cs) || singleChildRecList cs
  | _, _ => false

/-- `for child in children: rec(child)`, accumulating the violation flag. -/
def singleChildRecList : List Node → Bool
  | [] => false
  | c :: rest => singleChildRec false c || singleChildRecList rest
end

/-- `StatementWithSingleChildStatement.check_rule` (scripts/lint.py lines
419-433): `rec(rule.statement, is_root=True)`. -/
def StatementWithSingleChildStatement.checkRule (root : Node) : Bool :=
  singleChildRec true root

/-- The children a node exposes to the `And`/`Or`-only traversal of
`StatementWithSingleChildStatement.check_rule`: children of `And`/`Or`
nodes; other nodes are never recursed into there. -/
def andOrChildren : Node → List Node
  | .and cs => cs
  | .or cs => cs
  | _ => []

/-- `n` is a proper descendant of `p` reachable through a chain of
`And`/`Or` ancestors only (the nodes the single-child-wrapper traversal
actually visits as non-root). -/
inductive AndOrDesc : Node → Node → Prop where
  | here {p c : Node} : c ∈ andOrChildren p → AndOrDesc p c
  | step {p c n : Node} : c ∈ andOrChildren p → AndOrDesc c n → AndOrDesc p n

/-- `n` is a proper descendant of `p` (through arbitrary children). -/
inductive Subnode : Node → Node → Prop where
  | here {p c : Node} : c ∈ p.getChildren → Subnode p c
  | step {p c n : Node} : c ∈ p.getChildren → Subnode c n → Subnode p n

/-- An `And`/`Or` node with exactly one child that is itself a statement
(the pattern the single-child-wrapper lint describes). -/
def isBadWrapper : Node → Bool
  | .and cs => hasSingleStatementChild cs
  | .or cs => hasSingleStatementChild cs
  | _ => false

/-- Strong induction on the size of a statement tree. -/
theorem node_strong_ind {P : Node → Prop}
    (h : ∀ n, (∀ m, sizeOf m < sizeOf n → P m) → P n) : ∀ n, P n := by
  intro n
  suffices H : ∀ k (m : Node), sizeOf m < k → P m from H (sizeOf n + 1) n (Nat.lt_succ_self _)
  intro k
  induction k with
  | zero => intro m hm; omega
  | succ k ih => exact fun m hm => h m fun m2 hm2 => ih m2 (by omega)

theorem andOrDesc_iff (p n : Node) :
    AndOrDesc p n ↔ ∃ c ∈ andOrChildren p, n = c ∨ AndOrDesc c n := by
  constructor
  · intro h
    cases h with
    | here hc => exact ⟨_, hc, Or.inl rfl⟩
    | step hc hd => exact ⟨_, hc, Or.inr hd⟩
  · rintro ⟨c, hc, rfl | hd⟩
    · exact AndOrDesc.here hc
    · exact AndOrDesc.step hc hd

theorem andOrDesc_of_no_children {p : Node} (h : andOrChildren p = []) (n : Node) :
    ¬ AndOrDesc p n := by
  intro hd
  rcases (andOrDesc_iff p n).mp hd with ⟨c, hc, _⟩
  rw [h] at hc
  exact List.not_mem_nil c hc

theorem singleChildRecList_iff (cs : List Node) :
    singleChildRecList cs = true ↔ ∃ c ∈ cs, singleChildRec false c = true := by
  induction cs with
  | nil => simp [singleChildRecList]
  | cons c rest ih =>
    simp only [singleChildRecList, Bool.or_eq_true, ih, List.mem_cons]
    constructor
    · rintro (h | ⟨x, hx, h⟩)
      · exact ⟨c, Or.inl rfl, h⟩
      · exact ⟨x, Or.inr hx, h⟩
    · rintro ⟨x, rfl | hx, h⟩
      · exact Or.inl h
      · exact Or.inr ⟨x, hx, h⟩

theorem singleChildRec_false_iff :
    ∀ c, singleChildRec false c = true ↔
      (isBadWrapper c = true ∨ ∃ n, AndOrDesc c n ∧ isBadWrapper n = true) := by
  refine node_strong_ind ?_
  intro c0 ih
  have main : ∀ cs : List Node, (∀ c ∈ cs, sizeOf c < sizeOf c0) →
      (singleChildRecList cs = true ↔ ∃ n, (∃ c ∈ cs, n = c ∨ AndOrDesc c n) ∧ isBadWrapper n = true) := by
    intro cs hsz
    rw [singleChildRecList_iff]
    constructor
    · rintro ⟨c, hc, h⟩
      rcases (ih c (hsz c hc)).mp h with hbad | ⟨n, hdesc, hbad⟩
      · exact ⟨c, ⟨c, hc, Or.inl rfl⟩, hbad⟩
      · exact ⟨n, ⟨c, hc, Or.inr hdesc⟩, hbad⟩
    · rintro ⟨n, ⟨c, hc, heq | hdesc⟩, hbad⟩
      · exact ⟨c, hc, (ih c (hsz c hc)).mpr (Or.inl (heq ▸ hbad))⟩
      · exact ⟨c, hc, (ih c (hsz c hc)).mpr (Or.inr ⟨n, hdesc, hbad⟩)⟩
  cases c0 with
  | and cs =>
    have hsz : ∀ c ∈ cs, sizeOf c < sizeOf (Node.and cs) := by
      intro c hc
      have := List.sizeOf_lt_of_mem hc
      simp only [Node.and.sizeOf_spec]
      omega
    have hm := main cs hsz
    show (!false && hasSingleStatementChild cs || singleChildRecList cs) = true ↔ _
    rw [Bool.not_false, Bool.true_and, Bool.or_eq_true, hm]
    constructor
    · rintro (h | ⟨n, hex, hbad⟩)
      · exact Or.inl h
      · exact Or.inr ⟨n, (andOrDesc_iff (Node.and cs) n).mpr hex, hbad⟩
    · rintro (h | ⟨n, hdesc, hbad⟩)
      · exact Or.inl h
      · exact Or.inr ⟨n, (andOrDesc_iff (Node.and cs) n).mp hdesc, hbad⟩
  | or cs =>
    have hsz : ∀ c ∈ cs, sizeOf c < sizeOf (Node.or cs) := by
      intro c hc
      have := List.sizeOf_lt_of_mem hc
      simp only [Node.or.sizeOf_spec]
      omega
    have hm := main cs hsz
    show (!false && hasSingleStatementChild cs || singleChildRecList cs) = true ↔ _
    rw [Bool.not_false, Bool.true_and, Bool.or_eq_true, hm]
    constructor
    · rintro (h | ⟨n, hex, hbad⟩)
      · exact Or.inl h
      · exact Or.inr ⟨n, (andOrDesc_iff (Node.or cs) n).mpr hex, hbad⟩
    · rintro (h | ⟨n, hdesc, hbad⟩)
      · exact Or.inl h
      · exact Or.inr ⟨n, (andOrDesc_iff (Node.or cs) n).mp hdesc, hbad⟩
  | not c =>
    show false = true ↔ _
    simp only [Bool.false_eq_true, false_iff]
    rintro (h | ⟨n, hdesc, _⟩)
    · exact absurd h (by rw [show isBadWrapper (Node.not c) = false from rfl]; simp)
    · exact andOrDesc_of_no_children (show andOrChildren (Node.not c) = [] from rfl) n hdesc
  | some k cs =>
    show false = true ↔ _
    simp only [Bool.false_eq_true, false_iff]
    rintro (h | ⟨n, hdesc, _⟩)
    · exact absurd h (by rw [show isBadWrapper (Node.some k cs) = false from rfl]; simp)
    · exact andOrDesc_of_no_children (show andOrChildren (Node.some k cs) = [] from rfl) n hdesc
  | feature s =>
    show false = true ↔ _
    simp only [Bool.false_eq_true, false_iff]
    rintro (h | ⟨n, hdesc, _⟩)
    · exact absurd h (by rw [show isBadWrapper (Node.feature s) = false from rfl]; simp)
    · exact andOrDesc_of_no_children (show andOrChildren (Node.feature s) = [] from rfl) n hdesc

/-- C3 (amended): the single-child-wrapper pass reports a violation if
and only if some `And`/`Or` node, reachable from the root through a
chain of `And`/`Or` ancestors only (so never the root itself, and never
a node nested under a `Not` or `Some`), has exactly one child and that
child is itself a statement; in particular it never flags an `And`/`Or`
whose single child is a leaf feature, and never flags the root node. -/
theorem statementWithSingleChildStatement_amended :
    (∀ root, StatementWithSingleChildStatement.checkRule root = true ↔
      ∃ n, AndOrDesc root n ∧ isBadWrapper n = true) ∧
    StatementWithSingleChildStatement.checkRule
      (Node.and [Node.or [Node.feature "x"]]) = false ∧
    StatementWithSingleChildStatement.checkRule
      (Node.or [Node.and [Node.feature "x", Node.feature "y"]]) = false := by
  refine ⟨?_, rfl, rfl⟩
  intro root
  have main : ∀ cs : List Node,
      (singleChildRecList cs = true ↔
        ∃ n, (∃ c ∈ cs, n = c ∨ AndOrDesc c n) ∧ isBadWrapper n = true) := by
    intro cs
    rw [singleChildRecList_iff]
    constructor
    · rintro ⟨c, hc, h⟩
      rcases (singleChildRec_false_iff c).mp h with hbad | ⟨n, hdesc, hbad⟩
      · exact ⟨c, ⟨c, hc, Or.inl rfl⟩, hbad⟩
      · exact ⟨n, ⟨c, hc, Or.inr hdesc⟩, hbad⟩
    · rintro ⟨n, ⟨c, hc, heq | hdesc⟩, hbad⟩
      · exact ⟨c, hc, (singleChildRec_false_iff c).mpr (Or.inl (heq ▸ hbad))⟩
      · exact ⟨c, hc, (singleChildRec_false_iff c).mpr (Or.inr ⟨n, hdesc, hbad⟩)⟩
  cases root with
  | and cs =>
    show (!true && hasSingleStatementChild cs || singleChildRecList cs) = true ↔ _
    rw [Bool.not_true, Bool.false_and, Bool.false_or, main cs]
    constructor
    · rintro ⟨n, hex, hbad⟩
      exact ⟨n, (andOrDesc_iff (Node.and cs) n).mpr hex, hbad⟩
    · rintro ⟨n, hdesc, hbad⟩
      exact ⟨n, (andOrDesc_iff (Node.and cs) n).mp hdesc, hbad⟩
  | or cs =>
    show (!true && hasSingleStatementChild cs || singleChildRecList cs) = true ↔ _
    rw [Bool.not_true, Bool.false_and, Bool.false_or, main cs]
    constructor
    · rintro ⟨n, hex, hbad⟩
      exact ⟨n, (andOrDesc_iff (Node.or cs) n).mpr hex, hbad⟩
    · rintro ⟨n, hdesc, hbad⟩
      exact ⟨n, (andOrDesc_iff (Node.or cs) n).mp hdesc, hbad⟩
  | not c =>
    show false = true ↔ _
    simp only [Bool.false_eq_true, false_iff]
    rintro ⟨n, hdesc, _⟩
    exact andOrDesc_of_no_children (show andOrChildren (Node.not c) = [] from rfl) n hdesc
  | some k cs =>
    show false = true ↔ _
    simp only [Bool.false_eq_true, false_iff]
    rintro ⟨n, hdesc, _⟩
    exact andOrDesc_of_no_children (show andOrChildren (Node.some k cs) = [] from rfl) n hdesc
  | feature s =>
    show false = true ↔ _
    simp only [Bool.false_eq_true, false_iff]
    rintro ⟨n, hdesc, _⟩
    exact andOrDesc_of_no_children (show andOrChildren (Node.feature s) = [] from rfl) n hdesc

/-- C3 counterexample: this tree contains a non-root `Or` node whose
only child is a combinator statement (nested under a `Some`), yet the
pass reports no violation, because the traversal never descends into
children of `Not`/`Some` nodes. -/
theorem statementWithSingleChildStatement_cex :
    StatementWithSingleChildStatement.checkRule
      (Node.and [Node.some 1 [Node.or [Node.and [Node.feature "a", Node.feature "b"]]]]) = false ∧
    Subnode (Node.and [Node.some 1 [Node.or [Node.and [Node.feature "a", Node.feature "b"]]]])
      (Node.or [Node.and [Node.feature "a", Node.feature "b"]]) ∧
    isBadWrapper (Node.or [Node.and [Node.feature "a", Node.feature "b"]]) = true := by
  have h1 : Subnode (Node.some 1 [Node.or [Node.and [Node.feature "a", Node.feature "b"]]])
      (Node.or [Node.and [Node.feature "a", Node.feature "b"]]) :=
    Subnode.here (by rw [show (Node.some 1 [Node.or [Node.and [Node.feature "a", Node.feature "b"]]]).getChildren
      = [Node.or [Node.and [Node.feature "a", Node.feature "b"]]] from rfl]; exact List.mem_singleton.mpr rfl)
  refine ⟨rfl, Subnode.step ?_ h1, rfl⟩
  rw [show (Node.and [Node.some 1 [Node.or [Node.and [Node.feature "a", Node.feature "b"]]]]).getChildren
    = [Node.some 1 [Node.or [Node.and [Node.feature "a", Node.feature "b"]]]] from rfl]
  exact List.mem_singleton.mpr rfl

mutual
/-- The recursive helper `rec` of `OrStatementWithAlwaysTrueChild.check_rule`
(scripts/lint.py lines 445-453): only `Or` nodes are inspected, and only
children of `Or` nodes are recursed into. -/
def orAlwaysTrueRec : Node → Bool
  | .or cs => orAlwaysTrueList cs
  | _ => false

/-- Per-child loop: flag a direct `Some(count=0)` child, then `rec(child)`. -/
def orAlwaysTrueList : List Node → Bool
  | [] => false
  | c :: rest => (c.isSome0 || orAlwaysTrueRec c) || orAlwaysTrueList rest
end

/-- `OrStatementWithAlwaysTrueChild.check_rule` (scripts/lint.py lines
442-457): `rec(rule.statement)`. -/
def OrStatementWithAlwaysTrueChild.checkRule (root : Node) : Bool :=
  orAlwaysTrueRec root

/-- `n` is reachable from `t` through a (possibly empty) chain of `Or`
parents: exactly the nodes visited by the always-true-disjunction
traversal. -/
inductive OrReach : Node → Node → Prop where
  | refl {t : Node} : OrReach t t
  | step {t n : Node} {cs : List Node} : OrReach t (Node.or cs) → n ∈ cs → OrReach t n

theorem orReach_or_of_mem {cs : List Node} {c n : Node} (hc : c ∈ cs) (h : OrReach c n) :
    OrReach (Node.or cs) n := by
  induction h with
  | refl => exact OrReach.step OrReach.refl hc
  | step _ hmem ih => exact OrReach.step ih hmem

theorem orReach_or_inv {cs : List Node} {n : Node} (h : OrReach (Node.or cs) n) :
    n = Node.or cs ∨ ∃ c ∈ cs, OrReach c n := by
  induction h with
  | refl => exact Or.inl rfl
  | step _ hmem ih =>
    rcases ih with heq | ⟨c, hc, hr⟩
    · cases heq
      exact Or.inr ⟨_, hmem, OrReach.refl⟩
    · exact Or.inr ⟨c, hc, OrReach.step hr hmem⟩

theorem orReach_of_not_or {t : Node} (h : ∀ cs, t ≠ Node.or cs) {n : Node}
    (hr : OrReach t n) : n = t := by
  induction hr with
  | refl => rfl
  | step h2 _ ih => exact absurd ih.symm (h _)

theorem orAlwaysTrueList_iff (cs : List Node) :
    orAlwaysTrueList cs = true ↔
      ∃ c ∈ cs, (c.isSome0 || orAlwaysTrueRec c) = true := by
  induction cs with
  | nil => simp [orAlwaysTrueList]
  | cons c rest ih =>
    simp only [orAlwaysTrueList, Bool.or_eq_true, ih, List.mem_cons]
    constructor
    · rintro (h | ⟨x, hx, h⟩)
      · exact ⟨c, Or.inl rfl, h⟩
      · exact ⟨x, Or.inr hx, h⟩
    · rintro ⟨x, rfl | hx, h⟩
      · exact Or.inl h
      · exact Or.inr ⟨x, hx, h⟩

/-- Spec-side pattern for C4: an `Or` node with a direct `Some(count=0)`
child. -/
def orWithAlwaysTrueChild : Node → Bool
  | .or cs => cs.any Node.isSome0
  | _ => false

theorem orAlwaysTrueRec_iff :
    ∀ t, orAlwaysTrueRec t = true ↔
      ∃ n, OrReach t n ∧ orWithAlwaysTrueChild n = true := by
  refine node_strong_ind ?_
  intro t ih
  cases t with
  | or cs =>
    have hsz : ∀ c ∈ cs, sizeOf c < sizeOf (Node.or cs) := by
      intro c hc
      have := List.sizeOf_lt_of_mem hc
      simp only [Node.or.sizeOf_spec]
      omega
    show orAlwaysTrueList cs = true ↔ _
    rw [orAlwaysTrueList_iff]
    constructor
    · rintro ⟨c, hc, h⟩
      rcases Bool.or_eq_true _ _ |>.mp h with h0 | hrec
      · refine ⟨Node.or cs, OrReach.refl, ?_⟩
        show cs.any Node.isSome0 = true
        exact List.any_eq_true.mpr ⟨c, hc, h0⟩
      · rcases (ih c (hsz c hc)).mp hrec with ⟨n, hr, hbad⟩
        exact ⟨n, orReach_or_of_mem hc hr, hbad⟩
    · rintro ⟨n, hr, hbad⟩
      rcases orReach_or_inv hr with heq | ⟨c, hc, hr2⟩
      · subst heq
        have : cs.any Node.isSome0 = true := hbad
        rcases List.any_eq_true.mp this with ⟨c, hc, h0⟩
        exact ⟨c, hc, by rw [Bool.or_eq_true]; exact Or.inl h0⟩
      · exact ⟨c, hc, by
          rw [Bool.or_eq_true]
          exact Or.inr ((ih c (hsz c hc)).mpr ⟨n, hr2, hbad⟩)⟩
  | and cs =>
    show false = true ↔ _
    simp only [Bool.false_eq_true, false_iff]
    rintro ⟨n, hr, hbad⟩
    have := orReach_of_not_or (by intro cs2 h; cases h) hr
    subst this
    exact absurd hbad (by rw [show orWithAlwaysTrueChild (Node.and cs) = false from rfl]; simp)
  | not c =>
    show false = true ↔ _
    simp only [Bool.false_eq_true, false_iff]
    rintro ⟨n, hr, hbad⟩
    have := orReach_of_not_or (by intro cs2 h; cases h) hr
    subst this
    exact absurd hbad (by rw [show orWithAlwaysTrueChild (Node.not c) = false from rfl]; simp)
  | some k cs =>
    show false = true ↔ _
    simp only [Bool.false_eq_true, false_iff]
    rintro ⟨n, hr, hbad⟩
    have := orReach_of_not_or (by intro cs2 h; cases h) hr
    subst this
    exact absurd hbad (by rw [show orWithAlwaysTrueChild (Node.some k cs) = false from rfl]; simp)
  | feature s =>
    show false = true ↔ _
    simp only [Bool.false_eq_true, false_iff]
    rintro ⟨n, hr, hbad⟩
    have := orReach_of_not_or (by intro cs2 h; cases h) hr
    subst this
    exact absurd hbad (by rw [show orWithAlwaysTrueChild (Node.feature s) = false from rfl]; simp)

/-- C4 (amended): the always-true-disjunction pass reports a violation
if and only if some `Or` node reachable from the root through a chain of
`Or` parents only has a direct `Some(count=0)` child; consequently, on a
tree where no `Or` anywhere has a `Some(count=0)` direct child (e.g.
after removing that child or raising its count to at least 1) it reports
none, and raising the count to 1 or removing the child clears the
violation on the concrete instances below. -/
theorem orStatementWithAlwaysTrueChild_amended :
    (∀ t, OrStatementWithAlwaysTrueChild.checkRule t = true ↔
      ∃ n, OrReach t n ∧ orWithAlwaysTrueChild n = true) ∧
    OrStatementWithAlwaysTrueChild.checkRule
      (Node.or [Node.some 0 [Node.feature "f"], Node.feature "g"]) = true ∧
    OrStatementWithAlwaysTrueChild.checkRule
      (Node.or [Node.some 1 [Node.feature "f"], Node.feature "g"]) = false ∧
    OrStatementWithAlwaysTrueChild.checkRule
      (Node.or [Node.feature "g"]) = false := by
  exact ⟨orAlwaysTrueRec_iff, rfl, rfl, rfl⟩

/-- C4 counterexample: the root is an `And` containing an `Or` with a
direct `Some(count=0)` child, yet the pass reports no violation, because
the traversal does nothing on non-`Or` nodes (it never reaches `Or`
nodes nested below anything that is not an `Or`). -/
theorem orStatementWithAlwaysTrueChild_cex :
    OrStatementWithAlwaysTrueChild.checkRule
      (Node.and [Node.or [Node.some 0 [Node.feature "f"], Node.feature "g"]]) = false ∧
    Subnode (Node.and [Node.or [Node.some 0 [Node.feature "f"], Node.feature "g"]])
      (Node.or [Node.some 0 [Node.feature "f"], Node.feature "g"]) ∧
    orWithAlwaysTrueChild (Node.or [Node.some 0 [Node.feature "f"], Node.feature "g"]) = true := by
  refine ⟨rfl, Subnode.here ?_, rfl⟩
  rw [show (Node.and [Node.or [Node.some 0 [Node.feature "f"], Node.feature "g"]]).getChildren
    = [Node.or [Node.some 0 [Node.feature "f"], Node.feature "g"]] from rfl]
  exact List.mem_singleton.mpr rfl

/-- Some direct child is a `Some(count=0)` node. -/
def hasDirectSome0 (cs : List Node) : Bool := cs.any Node.isSome0

mutual
/-- The recursive helper `rec` of `OptionalNotUnderAnd.check_rule`
(scripts/lint.py lines 572-580): for every statement that is not an
`And`, its direct children are scanned for `Some(count=0)`; the
traversal recurses into the children of every statement. -/
def optionalRec : Node → Bool
  | .and cs => optionalRecList cs
  | .or cs => hasDirectSome0 cs || optionalRecList cs
  | .not c => hasDirectSome0 [c] || optionalRec c
  | .some _ cs => hasDirectSome0 cs || optionalRecList cs
  | .feature _ => false

def optionalRecList : List Node → Bool
  | [] => false
  | c :: rest => optionalRec c || optionalRecList rest
end

/-- `OptionalNotUnderAnd.check_rule` (scripts/lint.py lines 569-584). -/
def OptionalNotUnderAnd.checkRule (root : Node) : Bool :=
  optionalRec root

/-- Spec-side pattern for C5: a statement that is not an `And` having a
direct `Some(count=0)` child. -/
def badOptionalParent (p : Node) : Bool :=
  p.isStatement && !p.isAnd && hasDirectSome0 p.getChildren

theorem sizeOf_lt_of_mem_getChildren {t c : Node} (h : c ∈ t.getChildren) :
    sizeOf c < sizeOf t := by
  cases t with
  | and cs =>
    have h2 : c ∈ cs := h
    have := List.sizeOf_lt_of_mem h2
    simp only [Node.and.sizeOf_spec]
    omega
  | or cs =>
    have h2 : c ∈ cs := h
    have := List.sizeOf_lt_of_mem h2
    simp only [Node.or.sizeOf_spec]
    omega
  | not c2 =>
    have h2 : c ∈ [c2] := h
    have heq : c = c2 := List.mem_singleton.mp h2
    subst heq
    simp only [Node.not.sizeOf_spec]
    omega
  | some k cs =>
    have h2 : c ∈ cs := h
    have := List.sizeOf_lt_of_mem h2
    simp only [Node.some.sizeOf_spec]
    omega
  | feature s =>
    have h2 : c ∈ ([] : List Node) := h
    exact absurd h2 (List.not_mem_nil c)

theorem subnode_iff (p n : Node) :
    Subnode p n ↔ ∃ c ∈ p.getChildren, n = c ∨ Subnode c n := by
  constructor
  · intro h
    cases h with
    | here hc => exact ⟨_, hc, Or.inl rfl⟩
    | step hc hd => exact ⟨_, hc, Or.inr hd⟩
  · rintro ⟨c, hc, rfl | hd⟩
    · exact Subnode.here hc
    · exact Subnode.step hc hd

theorem optionalRecList_iff (cs : List Node) :
    optionalRecList cs = true ↔ ∃ c ∈ cs, optionalRec c = true := by
  induction cs with
  | nil => simp [optionalRecList]
  | cons c rest ih =>
    simp only [optionalRecList, Bool.or_eq_true, ih, List.mem_cons]
    constructor
    · rintro (h | ⟨x, hx, h⟩)
      · exact ⟨c, Or.inl rfl, h⟩
      · exact ⟨x, Or.inr hx, h⟩
    · rintro ⟨x, rfl | hx, h⟩
      · exact Or.inl h
      · exact Or.inr ⟨x, hx, h⟩

theorem optionalRec_iff :
    ∀ t, optionalRec t = true ↔
      ∃ p, (p = t ∨ Subnode t p) ∧ badOptionalParent p = true := by
  refine node_strong_ind ?_
  intro t ih
  have hform : optionalRec t = (badOptionalParent t || optionalRecList t.getChildren) := by
    cases t with
    | not c =>
      show (hasDirectSome0 [c] || optionalRec c) =
        (badOptionalParent (Node.not c) || optionalRecList [c])
      rw [show optionalRecList [c] = (optionalRec c || optionalRecList []) from rfl,
        show optionalRecList ([] : List Node) = false from rfl, Bool.or_false]
      rfl
    | and cs => rfl
    | or cs => rfl
    | some k cs => rfl
    | feature s => rfl
  rw [hform, Bool.or_eq_true, optionalRecList_iff]
  constructor
  · rintro (h | ⟨c, hc, h⟩)
    · exact ⟨t, Or.inl rfl, h⟩
    · rcases (ih c (sizeOf_lt_of_mem_getChildren hc)).mp h with ⟨p, hp | hp, hbad⟩
      · exact ⟨p, Or.inr ((subnode_iff t p).mpr ⟨c, hc, Or.inl hp⟩), hbad⟩
      · exact ⟨p, Or.inr ((subnode_iff t p).mpr ⟨c, hc, Or.inr hp⟩), hbad⟩
  · rintro ⟨p, hp | hp, hbad⟩
    · exact Or.inl (hp ▸ hbad)
    · rcases (subnode_iff t p).mp hp with ⟨c, hc, heq | hsub⟩
      · exact Or.inr ⟨c, hc, (ih c (sizeOf_lt_of_mem_getChildren hc)).mpr ⟨p, Or.inl heq, hbad⟩⟩
      · exact Or.inr ⟨c, hc, (ih c (sizeOf_lt_of_mem_getChildren hc)).mpr ⟨p, Or.inr hsub, hbad⟩⟩

/-- C5 (amended): the misplaced-optional pass flags exactly the
`Some(count=0)` nodes whose parent statement is not an `And` — a
violation is reported if and only if some statement (the root included)
that is not an `And` has a direct `Some(count=0)` child; a `Some` with
count at least 1 under a non-`And` parent is not flagged. -/
theorem optionalNotUnderAnd_amended :
    (∀ t, OptionalNotUnderAnd.checkRule t = true ↔
      ∃ p, (p = t ∨ Subnode t p) ∧ badOptionalParent p = true) ∧
    OptionalNotUnderAnd.checkRule
      (Node.or [Node.some 0 [Node.feature "f"], Node.feature "g"]) = true ∧
    OptionalNotUnderAnd.checkRule
      (Node.and [Node.some 0 [Node.feature "f"], Node.feature "g"]) = false := by
  exact ⟨optionalRec_iff, rfl, rfl⟩

/-- C5 counterexample: a `Some` node with count 1 sits directly under an
`Or` (a non-`And` statement parent), yet the pass reports no violation —
refuting the "any `Some` regardless of count" half of the claim (the
code tests `child.count == 0`). -/
theorem optionalNotUnderAnd_cex :
    OptionalNotUnderAnd.checkRule
      (Node.or [Node.some 1 [Node.feature "a"], Node.feature "b"]) = false ∧
    (Node.or [Node.some 1 [Node.feature "a"], Node.feature "b"]).isStatement = true ∧
    (Node.or [Node.some 1 [Node.feature "a"], Node.feature "b"]).isAnd = false ∧
    Node.some 1 [Node.feature "a"] ∈
      (Node.or [Node.some 1 [Node.feature "a"], Node.feature "b"]).getChildren := by
  refine ⟨rfl, rfl, rfl, ?_⟩
  rw [show (Node.or [Node.some 1 [Node.feature "a"], Node.feature "b"]).getChildren
    = [Node.some 1 [Node.feature "a"], Node.feature "b"] from rfl]
  exact List.mem_cons_self _ _

/-- Lint severity (`Lint.WARN` / `Lint.FAIL`). -/
inductive Severity where
  | warn : Severity
  | fail : Severity
deriving DecidableEq, Repr

/-- One reported violation, as consumed by `lint_rule`: the lint's
`name` and `level`. -/
structure Violation where
  name : String
  level : Severity
deriving DecidableEq, Repr

/-- Result of `lint_rule` (scripts/lint.py lines 1082-1140): whether the
main violations block was printed, whether the nursery "graduation"
notice was printed, and the returned `(lints_failed, lints_warned)`
pair. -/
structure LintRuleResult where
  printedMain : Bool
  printedGraduation : Bool
  failed : Nat
  warned : Nat
deriving DecidableEq, Repr

/-- `lint_rule` (scripts/lint.py lines 1082-1140), over the concatenated
list of violations produced by all lint categories and the
`is_nursery_rule(rule)` flag. -/
def lintRule (isNursery : Bool) (violations : List Violation) : LintRuleResult :=
  let printedMain := 0 < violations.length &&
    !(isNursery && violations.length == 1 &&
      ((violations.headD ⟨"", Severity.fail⟩).name == "missing examples"))
  if isNursery then
    let hasExamples := !(violations.any (fun v =>
      v.level == Severity.fail && v.name == "missing examples"))
    let failed := (violations.filter (fun v => v.level == Severity.fail &&
      !(v.name == "missing examples" || v.name == "referenced example doesn't exist"))).length
    let warned := (violations.filter (fun v => v.level == Severity.warn ||
      (v.level == Severity.fail && v.name == "referenced example doesn't exist"))).length
    { printedMain := printedMain,
      printedGraduation := failed == 0 && warned == 0 && hasExamples,
      failed := failed, warned := warned }
  else
    { printedMain := printedMain, printedGraduation := false,
      failed := (violations.filter (fun v => v.level == Severity.fail)).length,
      warned := (violations.filter (fun v => v.level == Severity.warn)).length }

theorem filter_filter_of_imp {α} (p q : α → Bool) (h : ∀ a, p a = true → q a = true)
    (l : List α) : (l.filter q).filter p = l.filter p := by
  induction l with
  | nil => rfl
  | cons a t ih =>
    by_cases hq : q a = true
    · by_cases hp : p a = true <;> simp [List.filter_cons, hq, hp, ih]
    · have hp : p a = false := by
        cases hpa : p a
        · rfl
        · exact absurd (h a hpa) hq
      simp [List.filter_cons, hq, hp, ih]

/-- C6: for a nursery rule, "missing examples" violations never
contribute to the returned failure count (removing them changes
nothing); a nursery rule whose only violation is the FAIL-severity
"missing examples" is suppressed entirely from output (no main block, no
graduation notice) and returns counts `(0, 0)`; a non-nursery rule
returns exactly the number of FAIL-severity violations paired with the
number of WARN-severity violations. -/
theorem lintRule_nursery_and_counts :
    (∀ vs, (lintRule true vs).failed =
      (lintRule true (vs.filter (fun v => !(v.name == "missing examples")))).failed) ∧
    lintRule true [⟨"missing examples", Severity.fail⟩] =
      { printedMain := false, printedGraduation := false, failed := 0, warned := 0 } ∧
    (∀ vs, (lintRule false vs).failed = (vs.filter (fun v => v.level == Severity.fail)).length ∧
      (lintRule false vs).warned = (vs.filter (fun v => v.level == Severity.warn)).length) := by
  refine ⟨?_, by decide, fun vs => ⟨rfl, rfl⟩⟩
  intro vs
  show (vs.filter (fun v => v.level == Severity.fail &&
      !(v.name == "missing examples" || v.name == "referenced example doesn't exist"))).length = _
  rw [show (lintRule true (vs.filter (fun v => !(v.name == "missing examples")))).failed =
    ((vs.filter (fun v => !(v.name == "missing examples"))).filter
      (fun v => v.level == Severity.fail &&
        !(v.name == "missing examples" || v.name == "referenced example doesn't exist"))).length
    from rfl]
  rw [filter_filter_of_imp]
  intro v hv
  rcases (Bool.and_eq_true _ _).mp hv with ⟨_, h2⟩
  rw [Bool.not_eq_true'] at h2
  rcases Bool.or_eq_false_iff.mp h2 with ⟨hme, _⟩
  rw [Bool.not_eq_true', hme]

/-- Python `example.partition(":")[0]`: the part of the string before
the first colon (the whole string when there is none). -/
def partitionBeforeColon (s : String) : String :=
  String.mk (s.data.takeWhile (fun c => !(c == Char.ofNat 58)))

/-- `DoesntMatchExample.check_rule` (scripts/lint.py lines 385-410).
`samples` models `ctx.samples` (an association of sample identifiers to
paths; a failed lookup raises `KeyError`, caught by the code and
skipped).  `getCaps` — Modelled from the spec: the external
capability-extraction engine reached through `get_sample_capabilities`
(which calls into `capa.main`/`capa.loader`/`capa.capabilities`, code of
this repository outside this source file); it is deterministic per path
and may raise, modelled as `Except Unit`.  The `try/except` around the
engine converts a raised exception into the return value `True`. -/
def DoesntMatchExample.checkRule (isThorough : Bool) (samples : List (String × String))
    (getCaps : String → Except Unit (List String)) (ruleName : String) :
    List String → Bool
  | [] => false
  | ex :: rest =>
    if !isThorough then false
    else
      match samples.lookup (partitionBeforeColon ex) with
      | none =>
        -- lint ExampleFileDNE will catch this; don't double report.
        DoesntMatchExample.checkRule isThorough samples getCaps ruleName rest
      | some path =>
        match getCaps path with
        | .error _ => true
        | .ok caps =>
          if !caps.contains ruleName then true
          else DoesntMatchExample.checkRule isThorough samples getCaps ruleName rest

/-- C7: in thorough mode, an example whose identifier is not in the
sample index is skipped by this pass (the result is that of the
remaining examples, never an exception), and whenever the engine raises
for a resolvable example the pass catches the exception and reports a
violation (returns `true`) instead of propagating it; with thorough mode
off the pass always passes. -/
theorem doesntMatchExample_catches_and_skips
    (samples : List (String × String)) (getCaps : String → Except Unit (List String))
    (ruleName ex : String) (rest : List String) :
    (samples.lookup (partitionBeforeColon ex) = none →
      DoesntMatchExample.checkRule true samples getCaps ruleName (ex :: rest) =
        DoesntMatchExample.checkRule true samples getCaps ruleName rest) ∧
    (∀ path, samples.lookup (partitionBeforeColon ex) = some path →
      getCaps path = .error () →
      DoesntMatchExample.checkRule true samples getCaps ruleName (ex :: rest) = true) ∧
    DoesntMatchExample.checkRule false samples getCaps ruleName (ex :: rest) = false := by
  refine ⟨?_, ?_, rfl⟩
  · intro h
    simp [DoesntMatchExample.checkRule, h]
  · intro path hpath herr
    simp [DoesntMatchExample.checkRule, hpath, herr]

/-- C7 witness: a concrete sample index in which example `ex1:0x401000`
resolves to a path for which the engine raises — the pass returns `true`
— and a concrete unresolvable example which is skipped. -/
theorem doesntMatchExample_catches_and_skips_witness :
    (DoesntMatchExample.checkRule true [("ex1", "p1")]
      (fun _ => Except.error ()) "r" ["ex0:0x10", "ex2:0x20"] =
      DoesntMatchExample.checkRule true [("ex1", "p1")]
        (fun _ => Except.error ()) "r" ["ex2:0x20"]) ∧
    DoesntMatchExample.checkRule true [("ex1", "p1")]
      (fun _ => Except.error ()) "r" ["ex1:0x401000"] = true := by
  constructor
  · exact (doesntMatchExample_catches_and_skips [("ex1", "p1")]
      (fun _ => Except.error ()) "r" "ex0:0x10" ["ex2:0x20"]).1 (by decide)
  · exact (doesntMatchExample_catches_and_skips [("ex1", "p1")]
      (fun _ => Except.error ()) "r" "ex1:0x401000" []).2.1 "p1" (by decide) rfl

/-- A ruamel YAML parse event, reduced to what
`FormatStringQuotesIncorrect.check_rule` inspects: a scalar event
carries its value and quoting style (`none` = plain/unquoted; `some c` =
the style character, e.g. a single or double quote); every other event
kind is `other`. -/
inductive YamlEvent where
  | scalar : String → Option Char → YamlEvent
  | other : YamlEvent
deriving DecidableEq, Repr

/-- The single-quote character. -/
def singleQuoteChar : Char := Char.ofNat 39

/-- The double-quote character. -/
def doubleQuoteChar : Char := Char.ofNat 34

/-- A value that looks like a bare regex, `/…/` or `/…/i`:
`value.value.startswith("/") and value.value.endswith(("/", "/i"))`. -/
def looksLikeRegex (v : String) : Bool :=
  [Char.ofNat 47].isPrefixOf v.data &&
    ([Char.ofNat 47].isSuffixOf v.data || [Char.ofNat 47, Char.ofNat 105].isSuffixOf v.data)

/-- `FormatStringQuotesIncorrect.check_rule` (scripts/lint.py lines
910-947) over the parser's event stream.  `for key in events` pulls one
event and `value = next(events)` pulls the following one (`none` models
the stream ending directly after a key event, where `next` would raise
`StopIteration`; a successful parse always continues after a scalar).
Returns `some (some msg)` at the first violation, with the
recommendation message, and `some none` when the scan completes.  The
regex exemption exists only in the `string` branch of the source, not in
the `substring` branch. -/
def FormatStringQuotesIncorrect.checkRule : List YamlEvent → Option (Option String)
  | [] => some none
  | .scalar key _ :: rest =>
    if key == "string" then
      match rest with
      | [] => none
      | .other :: rest2 => FormatStringQuotesIncorrect.checkRule rest2
      | .scalar v sty :: rest2 =>
        if looksLikeRegex v then
          -- ignore regex for now
          FormatStringQuotesIncorrect.checkRule rest2
        else if sty.isNone then
          some (some ("add double quotes to \"" ++ v ++ "\""))
        else if sty == some singleQuoteChar then
          some (some ("change single quotes to double quotes for \"" ++ v ++ "\""))
        else
          FormatStringQuotesIncorrect.checkRule rest2
    else if key == "substring" then
      match rest with
      | [] => none
      | .other :: rest2 => FormatStringQuotesIncorrect.checkRule rest2
      | .scalar v sty :: rest2 =>
        if sty.isNone then
          some (some ("add double quotes to \"" ++ v ++ "\""))
        else if sty == some singleQuoteChar then
          some (some ("change single quotes to double quotes for \"" ++ v ++ "\""))
        else
          FormatStringQuotesIncorrect.checkRule rest2
    else
      FormatStringQuotesIncorrect.checkRule rest
  | .other :: rest => FormatStringQuotesIncorrect.checkRule rest

/-- Spec-side for C8: the (key, value, style) triples the quote check
walks — each scalar event whose value is `string` or `substring` paired
with the scalar event immediately following it (a non-scalar follower is
skipped); `none` when the stream dangles directly after such a key
event. -/
def quotePairs : List YamlEvent → Option (List (String × String × Option Char))
  | [] => some []
  | .scalar key _ :: rest =>
    if key == "string" || key == "substring" then
      match rest with
      | [] => none
      | .other :: rest2 => quotePairs rest2
      | .scalar v sty :: rest2 => (quotePairs rest2).map (fun ps => (key, v, sty) :: ps)
    else quotePairs rest
  | .other :: rest => quotePairs rest

/-- A pair offends when its value is unquoted or single-quoted, except
that a regex-looking value under a `string` key is exempt. -/
def offendingPair : String × String × Option Char → Bool
  | (k, v, sty) =>
    (sty.isNone || sty == some singleQuoteChar) && !(k == "string" && looksLikeRegex v)

/-- The recommendation produced for an offending pair. -/
def quoteMessage : String × String × Option Char → String
  | (_, v, sty) =>
    if sty.isNone then "add double quotes to \"" ++ v ++ "\""
    else "change single quotes to double quotes for \"" ++ v ++ "\""

theorem quoteScan_characterization :
    ∀ evs ps, quotePairs evs = some ps →
      FormatStringQuotesIncorrect.checkRule evs =
        some ((ps.find? offendingPair).map quoteMessage) := by
  suffices H : ∀ k evs, List.length evs < k → ∀ ps, quotePairs evs = some ps →
      FormatStringQuotesIncorrect.checkRule evs =
        some ((ps.find? offendingPair).map quoteMessage) by
    exact fun evs ps h => H (evs.length + 1) evs (Nat.lt_succ_self _) ps h
  intro k
  induction k with
  | zero => intro evs hlen; omega
  | succ k ih =>
    intro evs hlen ps hps
    cases evs with
    | nil =>
      simp only [quotePairs, Option.some.injEq] at hps
      subst hps
      rfl
    | cons e rest =>
      cases e with
      | other =>
        simp only [quotePairs] at hps
        simp only [FormatStringQuotesIncorrect.checkRule]
        exact ih rest (by simp only [List.length_cons] at hlen; omega) ps hps
      | scalar key s0 =>
        by_cases hs : (key == "string") = true
        · cases rest with
          | nil => simp [quotePairs, hs] at hps
          | cons e2 rest2 =>
            cases e2 with
            | other =>
              simp only [quotePairs, hs, Bool.true_or, if_true] at hps
              have hrec := ih rest2 (by simp only [List.length_cons] at hlen; omega) ps hps
              simp only [FormatStringQuotesIncorrect.checkRule, hs, if_true]
              exact hrec
            | scalar v sty =>
              simp only [quotePairs, hs, Bool.true_or, if_true] at hps
              cases hq : quotePairs rest2 with
              | none => rw [hq] at hps; simp at hps
              | some ps2 =>
                rw [hq] at hps
                simp only [Option.map_some', Option.some.injEq] at hps
                subst hps
                have hrec := ih rest2 (by simp only [List.length_cons] at hlen; omega) ps2 hq
                by_cases hreg : looksLikeRegex v = true
                · have hoff : offendingPair (key, v, sty) = false := by
                    simp [offendingPair, hs, hreg]
                  simp only [FormatStringQuotesIncorrect.checkRule, hs, if_true, hreg]
                  rw [List.find?_cons_of_neg _ (by simp [hoff])]
                  exact hrec
                · have hregf : looksLikeRegex v = false := Bool.eq_false_iff.mpr hreg
                  by_cases hnone : sty.isNone = true
                  · have hsty : sty = none := Option.isNone_iff_eq_none.mp hnone
                    subst hsty
                    have hoff : offendingPair (key, v, none) = true := by
                      simp [offendingPair, hregf]
                    simp only [FormatStringQuotesIncorrect.checkRule, hs, if_true, hregf,
                      Bool.false_eq_true, if_false, Option.isNone_none, if_true]
                    rw [List.find?_cons_of_pos _ hoff]
                    simp [quoteMessage]
                  · have hnonef : sty.isNone = false := Bool.eq_false_iff.mpr hnone
                    by_cases hsq : (sty == some singleQuoteChar) = true
                    · have hoff : offendingPair (key, v, sty) = true := by
                        simp [offendingPair, hregf, hsq]
                      simp only [FormatStringQuotesIncorrect.checkRule, hs, if_true, hregf,
                        Bool.false_eq_true, if_false, hnonef, hsq, if_true]
                      rw [List.find?_cons_of_pos _ hoff]
                      simp [quoteMessage, hnonef]
                    · have hsqf : (sty == some singleQuoteChar) = false := Bool.eq_false_iff.mpr hsq
                      have hoff : offendingPair (key, v, sty) = false := by
                        simp [offendingPair, hnonef, hsqf]
                      simp only [FormatStringQuotesIncorrect.checkRule, hs, if_true, hregf,
                        Bool.false_eq_true, if_false, hnonef, hsqf]
                      rw [List.find?_cons_of_neg _ (by simp [hoff])]
                      exact hrec
        · have hsf : (key == "string") = false := Bool.eq_false_iff.mpr hs
          by_cases hss : (key == "substring") = true
          · cases rest with
            | nil => simp [quotePairs, hsf, hss] at hps
            | cons e2 rest2 =>
              cases e2 with
              | other =>
                simp only [quotePairs, hsf, hss, Bool.false_or, if_true] at hps
                have hrec := ih rest2 (by simp only [List.length_cons] at hlen; omega) ps hps
                simp only [FormatStringQuotesIncorrect.checkRule, hsf, hss,
                  Bool.false_eq_true, if_false, if_true]
                exact hrec
              | scalar v sty =>
                simp only [quotePairs, hsf, hss, Bool.false_or, if_true] at hps
                cases hq : quotePairs rest2 with
                | none => rw [hq] at hps; simp at hps
                | some ps2 =>
                  rw [hq] at hps
                  simp only [Option.map_some', Option.some.injEq] at hps
                  subst hps
                  have hrec := ih rest2 (by simp only [List.length_cons] at hlen; omega) ps2 hq
                  by_cases hnone : sty.isNone = true
                  · have hsty : sty = none := Option.isNone_iff_eq_none.mp hnone
                    subst hsty
                    have hoff : offendingPair (key, v, none) = true := by
                      simp [offendingPair, hsf]
                    simp only [FormatStringQuotesIncorrect.checkRule, hsf, hss,
                      Bool.false_eq_true, if_false, if_true, Option.isNone_none]
                    rw [List.find?_cons_of_pos _ hoff]
                    simp [quoteMessage]
                  · have hnonef : sty.isNone = false := Bool.eq_false_iff.mpr hnone
                    by_cases hsq : (sty == some singleQuoteChar) = true
                    · have hoff : offendingPair (key, v, sty) = true := by
                        simp [offendingPair, hsf, hsq]
                      simp only [FormatStringQuotesIncorrect.checkRule, hsf, hss,
                        Bool.false_eq_true, if_false, if_true, hnonef, hsq]
                      rw [List.find?_cons_of_pos _ hoff]
                      simp [quoteMessage, hnonef]
                    · have hsqf : (sty == some singleQuoteChar) = false := Bool.eq_false_iff.mpr hsq
                      have hoff : offendingPair (key, v, sty) = false := by
                        simp [offendingPair, hnonef, hsqf]
                      simp only [FormatStringQuotesIncorrect.checkRule, hsf, hss,
                        Bool.false_eq_true, if_false, if_true, hnonef, hsqf]
                      rw [List.find?_cons_of_neg _ (by simp [hoff])]
                      exact hrec
          · have hssf : (key == "substring") = false := Bool.eq_false_iff.mpr hss
            unfold quotePairs at hps
            rw [hsf, hssf] at hps
            simp only [Bool.or_self, Bool.false_eq_true, if_false] at hps
            have hrec := ih rest (by simp only [List.length_cons] at hlen; omega) ps hps
            unfold FormatStringQuotesIncorrect.checkRule
            rw [hsf, hssf]
            simpa using hrec

/-- C8 (amended): over any event stream in which every
`string`/`substring` key event is followed by another event, the quote
check flags exactly the first scalar value keyed `string` or `substring`
that is unquoted or single-quoted, with the corresponding
recommendation — except that a bare regex-looking value of the form
`/…/` or `/…/i` is exempt only when keyed `string` (a regex-looking
`substring` value is still flagged).  Concretely, an unquoted
regex-looking `string` value is not flagged while an unquoted or
single-quoted plain value is. -/
theorem formatStringQuotesIncorrect_amended :
    (∀ evs ps, quotePairs evs = some ps →
      FormatStringQuotesIncorrect.checkRule evs =
        some ((ps.find? offendingPair).map quoteMessage)) ∧
    FormatStringQuotesIncorrect.checkRule
      [YamlEvent.scalar "string" none, YamlEvent.scalar "/re/i" none, YamlEvent.other] =
      some none ∧
    FormatStringQuotesIncorrect.checkRule
      [YamlEvent.scalar "string" none, YamlEvent.scalar "abc" (some singleQuoteChar),
        YamlEvent.other] =
      some (some "change single quotes to double quotes for \"abc\"") := by
  refine ⟨quoteScan_characterization, by decide, by decide⟩

/-- C8 witness: the characterization applied to a concrete stream with
an unquoted `substring` value. -/
theorem formatStringQuotesIncorrect_amended_witness :
    FormatStringQuotesIncorrect.checkRule
      [YamlEvent.scalar "substring" none, YamlEvent.scalar "bad" none, YamlEvent.other] =
      some ((([("substring", "bad", (none : Option Char))].find? offendingPair).map quoteMessage)) :=
  formatStringQuotesIncorrect_amended.1
    [YamlEvent.scalar "substring" none, YamlEvent.scalar "bad" none, YamlEvent.other]
    [("substring", "bad", none)] (by decide)

/-- C8 counterexample: an unquoted regex-looking value keyed `substring`
is flagged by the code — the regex exemption exists only in the `string`
branch — contradicting the claim that bare regex-looking values of the
form `/…/` or `/…/i` are exempt from this check. -/
theorem formatStringQuotesIncorrect_cex :
    FormatStringQuotesIncorrect.checkRule
      [YamlEvent.scalar "substring" none, YamlEvent.scalar "/virus/" none, YamlEvent.other] =
      some (some "add double quotes to \"/virus/\"") ∧
    looksLikeRegex "/virus/" = true := by
  exact ⟨by decide, by decide⟩

/-- A node of the raw ruamel-parsed YAML representation of a rule's
`features` section (before tree-level deduplication): a scalar, a
sequence, or a mapping.  A mapping carries the 1-based line number that
`get_line_number` computes from ruamel's `lc.line + 1`. -/
inductive RawVal where
  | scalar : String → RawVal
  | seq : List RawVal → RawVal
  | dict : Nat → List (String × RawVal) → RawVal

/-- The `STATEMENTS` marker set of `DuplicateFeatureUnderStatement.check_rule`
(scripts/lint.py lines 596-609). -/
def STATEMENTS : List String :=
  ["or", "and", "not", "optional", "some", "basic block", "function", "instruction",
    "call", " or more"]

/-- Python substring containment, `needle in hay`. -/
def strContainsSub (hay needle : String) : Bool :=
  (List.range (hay.data.length + 1)).any (fun i => needle.data.isPrefixOf (hay.data.drop i))

/-- `is_statement(key)`: `any(statement in key for statement in STATEMENTS)`.
Note this is substring containment, not equality: keys such as `export`,
`import`, `format` or `operand` contain `or`/`and` and are therefore
classified as statements. -/
def isStatementKey (key : String) : Bool :=
  STATEMENTS.any (fun s => strContainsSub key s)

/-- Key classification as the claim words it: a combinator marker is
literally one of the statement words, or a `n or more` style key ending
in " or more". -/
def isListedCombinatorKey (key : String) : Bool :=
  STATEMENTS.contains key || " or more".data.isSuffixOf key.data

/-- Python `str(value)` for the values stringified into a feature key.
A ruamel scalar stringifies to its text; feature entries — the only
dicts rendered by `get_feature_key` — hold scalar values in rule files,
so the container cases use a fixed placeholder rendering. -/
def pyStr : RawVal → String
  | .scalar s => s
  | .seq _ => "[...]"
  | .dict _ _ => "CommentedMap(...)"

/-- `get_feature_key(feature_dict)` (scripts/lint.py lines 624-631):
`"- " + ", ".join(f"{key}: {value}" for key, value in feature_dict.items())`. -/
def getFeatureKey (entries : List (String × RawVal)) : String :=
  "- " ++ String.intercalate ", " (entries.map (fun e => e.1 ++ ": " ++ pyStr e.2))

/-- `feature_key in seen_features`. -/
def seenContains (seen : List (String × List Nat)) (fk : String) : Bool :=
  seen.any (fun e => e.1 == fk)

/-- `seen_features[feature_key].append(line_num)` for a present key,
preserving insertion order. -/
def seenAppend : List (String × List Nat) → String → Nat → List (String × List Nat)
  | [], _, _ => []
  | (k, ls) :: rest, fk, line =>
    if k == fk then (k, ls ++ [line]) :: rest
    else (k, ls) :: seenAppend rest fk line

/-- Insertion into an ascending list. -/
def insertAsc (n : Nat) : List Nat → List Nat
  | [] => [n]
  | m :: rest => if n ≤ m then n :: m :: rest else m :: insertAsc n rest

/-- Python `sorted(line_numbers)`. -/
def sortAsc (l : List Nat) : List Nat := l.foldr insertAsc []

/-- One recommendation segment,
`'\n\tduplicate line: "{:s}"\t: line numbers: {:s}'` with the sorted,
comma-joined line numbers. -/
def recSegment (fk : String) (lines : List Nat) : String :=
  "\n\tduplicate line: \"" ++ fk ++ "\"\t: line numbers: " ++
    String.intercalate ", " ((sortAsc lines).map (fun n => toString n))

/-- The loop over `seen_features.items()` appending a segment for every
key with more than one recorded line number (scripts/lint.py lines
656-661). -/
def recsOfSeen : List (String × List Nat) → String
  | [] => ""
  | (fk, lines) :: rest =>
    (if 1 < lines.length then recSegment fk lines else "") ++ recsOfSeen rest

mutual
/-- `find_duplicates(features)` (scripts/lint.py lines 633-661), in
state-passing form over `(self.violation, self.recommendation)`: a
non-list argument returns immediately; a list is scanned item by item
(statement-classified values recursed into on the spot), then the
recommendation segments of this level are appended. -/
def findDuplicates : RawVal → Bool × String → Bool × String
  | .seq items, st =>
    let r := fdItems items st []
    (r.1.1, r.1.2 ++ recsOfSeen r.2)
  | _, st => st

/-- The `for item in features` loop, threading the violation flag, the
recommendation accumulated so far and `seen_features` (an
insertion-ordered association of feature keys to line numbers). -/
def fdItems : List RawVal → Bool × String → List (String × List Nat) →
    (Bool × String) × List (String × List Nat)
  | [], st, seen => (st, seen)
  | .dict line entries :: rest, st, seen =>
    if entries.any (fun e => isStatementKey e.1) then
      fdItems rest (fdEntries entries st) seen
    else
      if seenContains seen (getFeatureKey entries) then
        fdItems rest (true, st.2) (seenAppend seen (getFeatureKey entries) line)
      else
        fdItems rest st (seen ++ [(getFeatureKey entries, [line])])
  | _ :: rest, st, seen => fdItems rest st seen

/-- `for key, value in item.items(): if is_statement(key):
find_duplicates(value)` — the recursion into nested features. -/
def fdEntries : List (String × RawVal) → Bool × String → Bool × String
  | [], st => st
  | (k, v) :: rest, st =>
    fdEntries rest (if isStatementKey k then findDuplicates v st else st)
end

/-- `DuplicateFeatureUnderStatement.check_rule` (scripts/lint.py lines
593-666), applied to the raw parsed `features` value of the rule
definition; returns the final `(self.violation, self.recommendation)`
pair (the Python method returns the Boolean and stores the
recommendation on `self`). -/
def DuplicateFeatureUnderStatement.checkRule (features : RawVal) : Bool × String :=
  findDuplicates features (false, "")

/-- The normalized feature keys of the items at one level, under key
classification `isStmt`: one key per dict item none of whose keys is a
statement marker, in order. -/
def featureKeysOfItems (isStmt : String → Bool) : List RawVal → List String
  | [] => []
  | .dict _ entries :: rest =>
    if entries.any (fun e => isStmt e.1) then featureKeysOfItems isStmt rest
    else getFeatureKey entries :: featureKeysOfItems isStmt rest
  | _ :: rest => featureKeysOfItems isStmt rest

/-- Membership test among already-seen keys. -/
def keysContain (ks : List String) (fk : String) : Bool :=
  ks.any (fun k2 => k2 == fk)

/-- Scanning a key list left to right with an initial seen set: does
some key repeat (or hit the seen set)? -/
def anyRepeat (seenKeys : List String) : List String → Bool
  | [] => false
  | k :: ks => keysContain seenKeys k || anyRepeat (k :: seenKeys) ks

mutual
/-- The violation contribution of one value, independent of incoming
state: a visited level contributes when its feature keys repeat or a
nested level does. -/
def levelDupB : RawVal → Bool
  | .seq items =>
    anyRepeat [] (featureKeysOfItems isStatementKey items) || itemsDupB items
  | _ => false

/-- Nested contributions of the statement-classified items of a level. -/
def itemsDupB : List RawVal → Bool
  | [] => false
  | .dict _ entries :: rest =>
    (if entries.any (fun e => isStatementKey e.1) then entriesDupB entries else false) ||
      itemsDupB rest
  | _ :: rest => itemsDupB rest

/-- Nested contributions of the statement-classified entries of an item. -/
def entriesDupB : List (String × RawVal) → Bool
  | [] => false
  | (k, v) :: rest => (isStatementKey k && levelDupB v) || entriesDupB rest
end

/-- Strong induction on the size of a raw value. -/
theorem rawVal_strong_ind {P : RawVal → Prop}
    (h : ∀ n, (∀ m : RawVal, sizeOf m < sizeOf n → P m) → P n) : ∀ n, P n := by
  intro n
  suffices H : ∀ k (m : RawVal), sizeOf m < k → P m from H (sizeOf n + 1) n (Nat.lt_succ_self _)
  intro k
  induction k with
  | zero => intro m hm; omega
  | succ k ih => exact fun m hm => h m fun m2 hm2 => ih m2 (by omega)

theorem seenContains_eq (seen : List (String × List Nat)) (fk : String) :
    seenContains seen fk = keysContain (seen.map Prod.fst) fk := by
  induction seen with
  | nil => rfl
  | cons e rest ih =>
    show (e.1 == fk || seenContains rest fk) = (e.1 == fk || keysContain (rest.map Prod.fst) fk)
    rw [ih]

theorem seenAppend_map_fst (seen : List (String × List Nat)) (fk : String) (line : Nat) :
    (seenAppend seen fk line).map Prod.fst = seen.map Prod.fst := by
  induction seen with
  | nil => rfl
  | cons e rest ih =>
    rcases e with ⟨k, ls⟩
    by_cases h : (k == fk) = true <;> simp [seenAppend, h, ih]

theorem keysContain_cons (k : String) (ks : List String) (x : String) :
    keysContain (k :: ks) x = ((k == x) || keysContain ks x) := by
  simp [keysContain]

theorem keysContain_append_single (ks : List String) (k x : String) :
    keysContain (ks ++ [k]) x = keysContain (k :: ks) x := by
  simp [keysContain, List.any_append, Bool.or_comm]

theorem anyRepeat_congr (l : List String) :
    ∀ a b : List String, (∀ x, keysContain a x = keysContain b x) →
      anyRepeat a l = anyRepeat b l := by
  induction l with
  | nil => intro a b _; rfl
  | cons k ks ih =>
    intro a b h
    simp only [anyRepeat, h k]
    congr 1
    exact ih (k :: a) (k :: b) (fun x => by rw [keysContain_cons, keysContain_cons, h x])

theorem keysContain_iff_mem (ks : List String) (x : String) :
    keysContain ks x = true ↔ x ∈ ks := by
  simp only [keysContain, List.any_eq_true]
  constructor
  · rintro ⟨k2, hk2, he⟩
    rw [← eq_of_beq he]
    exact hk2
  · intro hx
    exact ⟨x, hx, beq_self_eq_true x⟩

theorem anyRepeat_eq_true_iff (l : List String) :
    ∀ seen : List String, (anyRepeat seen l = true ↔ (∃ k ∈ l, k ∈ seen) ∨ ¬ l.Nodup) := by
  induction l with
  | nil => intro seen; simp [anyRepeat]
  | cons k ks ih =>
    intro seen
    simp only [anyRepeat, Bool.or_eq_true, keysContain_iff_mem, ih (k :: seen),
      List.nodup_cons, List.mem_cons]
    constructor
    · rintro (h | (⟨x, hx, hxs⟩ | hnd))
      · exact Or.inl ⟨k, Or.inl rfl, h⟩
      · rcases hxs with rfl | hxs
        · exact Or.inr (fun hc => hc.1 hx)
        · exact Or.inl ⟨x, Or.inr hx, hxs⟩
      · exact Or.inr (fun hc => hnd hc.2)
    · rintro (⟨x, rfl | hx, hxs⟩ | hnd)
      · exact Or.inl hxs
      · exact Or.inr (Or.inl ⟨x, hx, Or.inr hxs⟩)
      · by_cases hk : k ∈ ks
        · exact Or.inr (Or.inl ⟨k, hk, Or.inl rfl⟩)
        · exact Or.inr (Or.inr (fun hnd2 => hnd ⟨hk, hnd2⟩))

theorem fdEntries_fst (B : Nat)
    (hIH : ∀ w : RawVal, sizeOf w < B → ∀ st : Bool × String,
      (findDuplicates w st).1 = (st.1 || levelDupB w)) :
    ∀ entries : List (String × RawVal), sizeOf entries < B →
      ∀ st : Bool × String, (fdEntries entries st).1 = (st.1 || entriesDupB entries) := by
  intro entries
  induction entries with
  | nil =>
    intro _ st
    show st.1 = (st.1 || false)
    rw [Bool.or_false]
  | cons e rest ih =>
    rcases e with ⟨k, v⟩
    intro hsz st
    have hszrest : sizeOf rest < B := by
      simp only [List.cons.sizeOf_spec] at hsz; omega
    have hszv : sizeOf v < B := by
      simp only [List.cons.sizeOf_spec, Prod.mk.sizeOf_spec] at hsz; omega
    show (fdEntries rest (if isStatementKey k then findDuplicates v st else st)).1 =
      (st.1 || ((isStatementKey k && levelDupB v) || entriesDupB rest))
    rw [ih hszrest]
    by_cases hk : isStatementKey k = true
    · rw [if_pos hk, hIH v hszv st, hk, Bool.true_and]
      simp only [Bool.or_assoc]
    · have hkf : isStatementKey k = false := Bool.eq_false_iff.mpr hk
      rw [if_neg hk, hkf, Bool.false_and, Bool.false_or]

theorem fdItems_fst (B : Nat)
    (hIH : ∀ w : RawVal, sizeOf w < B → ∀ st : Bool × String,
      (findDuplicates w st).1 = (st.1 || levelDupB w)) :
    ∀ items : List RawVal, sizeOf items < B →
      ∀ (st : Bool × String) (seen : List (String × List Nat)),
        (fdItems items st seen).1.1 =
          ((st.1 || itemsDupB items) ||
            anyRepeat (seen.map Prod.fst) (featureKeysOfItems isStatementKey items)) := by
  intro items
  induction items with
  | nil =>
    intro _ st seen
    show st.1 = ((st.1 || false) || anyRepeat (seen.map Prod.fst) [])
    show st.1 = ((st.1 || false) || false)
    rw [Bool.or_false, Bool.or_false]
  | cons item rest ih =>
    intro hsz st seen
    have hszrest : sizeOf rest < B := by
      simp only [List.cons.sizeOf_spec] at hsz; omega
    cases item with
    | scalar s =>
      show (fdItems rest st seen).1.1 = _
      rw [ih hszrest st seen]
      rfl
    | seq xs =>
      show (fdItems rest st seen).1.1 = _
      rw [ih hszrest st seen]
      rfl
    | dict line entries =>
      have hszentries : sizeOf entries < B := by
        simp only [List.cons.sizeOf_spec, RawVal.dict.sizeOf_spec] at hsz; omega
      by_cases hstmt : (entries.any (fun e => isStatementKey e.1)) = true
      · show (if entries.any (fun e => isStatementKey e.1) then
            fdItems rest (fdEntries entries st) seen
          else
            if seenContains seen (getFeatureKey entries) then
              fdItems rest (true, st.2) (seenAppend seen (getFeatureKey entries) line)
            else
              fdItems rest st (seen ++ [(getFeatureKey entries, [line])])).1.1 = _
        rw [if_pos hstmt, ih hszrest, fdEntries_fst B hIH entries hszentries st]
        rw [show itemsDupB (RawVal.dict line entries :: rest) =
            ((if entries.any (fun e => isStatementKey e.1) then entriesDupB entries else false) ||
              itemsDupB rest) from rfl,
          show featureKeysOfItems isStatementKey (RawVal.dict line entries :: rest) =
            (if entries.any (fun e => isStatementKey e.1) then
              featureKeysOfItems isStatementKey rest
            else getFeatureKey entries :: featureKeysOfItems isStatementKey rest) from rfl,
          if_pos hstmt, if_pos hstmt]
        simp only [Bool.or_assoc]
      · have hstmtf : (entries.any (fun e => isStatementKey e.1)) = false :=
          Bool.eq_false_iff.mpr hstmt
        have hkeys : featureKeysOfItems isStatementKey (RawVal.dict line entries :: rest) =
            getFeatureKey entries :: featureKeysOfItems isStatementKey rest := by
          rw [show featureKeysOfItems isStatementKey (RawVal.dict line entries :: rest) =
            (if entries.any (fun e => isStatementKey e.1) then
              featureKeysOfItems isStatementKey rest
            else getFeatureKey entries :: featureKeysOfItems isStatementKey rest) from rfl,
            if_neg hstmt]
        have hdup : itemsDupB (RawVal.dict line entries :: rest) = itemsDupB rest := by
          rw [show itemsDupB (RawVal.dict line entries :: rest) =
            ((if entries.any (fun e => isStatementKey e.1) then entriesDupB entries else false) ||
              itemsDupB rest) from rfl, if_neg hstmt, Bool.false_or]
        show (if entries.any (fun e => isStatementKey e.1) then
            fdItems rest (fdEntries entries st) seen
          else
            if seenContains seen (getFeatureKey entries) then
              fdItems rest (true, st.2) (seenAppend seen (getFeatureKey entries) line)
            else
              fdItems rest st (seen ++ [(getFeatureKey entries, [line])])).1.1 = _
        rw [if_neg hstmt, hkeys, hdup]
        rw [show anyRepeat (seen.map Prod.fst)
              (getFeatureKey entries :: featureKeysOfItems isStatementKey rest) =
            (keysContain (seen.map Prod.fst) (getFeatureKey entries) ||
              anyRepeat (getFeatureKey entries :: seen.map Prod.fst)
                (featureKeysOfItems isStatementKey rest)) from rfl]
        by_cases hc : seenContains seen (getFeatureKey entries) = true
        · rw [if_pos hc, ih hszrest, seenAppend_map_fst]
          have hkc : keysContain (seen.map Prod.fst) (getFeatureKey entries) = true := by
            rw [← seenContains_eq]; exact hc
          rw [hkc]
          simp only [Bool.true_or, Bool.or_true]
        · have hcf : seenContains seen (getFeatureKey entries) = false := Bool.eq_false_iff.mpr hc
          rw [if_neg hc, ih hszrest, List.map_append]
          have hkc : keysContain (seen.map Prod.fst) (getFeatureKey entries) = false := by
            rw [← seenContains_eq]; exact hcf
          rw [show ((getFeatureKey entries, ([line] : List Nat)) :: []).map Prod.fst =
              [getFeatureKey entries] from rfl]
          rw [anyRepeat_congr (featureKeysOfItems isStatementKey rest)
            (seen.map Prod.fst ++ [getFeatureKey entries])
            (getFeatureKey entries :: seen.map Prod.fst)
            (fun x => keysContain_append_single (seen.map Prod.fst) (getFeatureKey entries) x)]
          rw [hkc, Bool.false_or]

theorem findDuplicates_fst :
    ∀ v : RawVal, ∀ st : Bool × String, (findDuplicates v st).1 = (st.1 || levelDupB v) := by
  refine rawVal_strong_ind ?_
  intro v ih
  cases v with
  | scalar s =>
    intro st
    show st.1 = (st.1 || false)
    rw [Bool.or_false]
  | dict line entries =>
    intro st
    show st.1 = (st.1 || false)
    rw [Bool.or_false]
  | seq items =>
    intro st
    have hsz : sizeOf items < sizeOf (RawVal.seq items) := by
      simp only [RawVal.seq.sizeOf_spec]; omega
    show (fdItems items st []).1.1 = _
    rw [fdItems_fst (sizeOf (RawVal.seq items)) ih items hsz st []]
    show ((st.1 || itemsDupB items) || anyRepeat [] (featureKeysOfItems isStatementKey items)) =
      (st.1 || (anyRepeat [] (featureKeysOfItems isStatementKey items) || itemsDupB items))
    simp only [Bool.or_assoc, Bool.or_comm, Bool.or_left_comm]

/-- The item lists (nesting levels) the duplicate-feature traversal
visits: the root list of the `features` value, and recursively every
value stored under a statement-classified key of a statement-classified
item of a visited level. -/
inductive LevelReach : RawVal → List RawVal → Prop where
  | root {items : List RawVal} : LevelReach (RawVal.seq items) items
  | nested {v : RawVal} {items : List RawVal} {line : Nat}
      {entries : List (String × RawVal)} {k : String} {w : RawVal} {ls : List RawVal} :
      LevelReach v items →
      RawVal.dict line entries ∈ items →
      (entries.any (fun e => isStatementKey e.1)) = true →
      (k, w) ∈ entries →
      isStatementKey k = true →
      LevelReach w ls →
      LevelReach v ls

theorem levelReach_is_seq {v : RawVal} {ls : List RawVal} (h : LevelReach v ls) :
    ∃ items, v = RawVal.seq items := by
  induction h with
  | root => exact ⟨_, rfl⟩
  | nested h1 h2 h3 h4 h5 h6 ih1 ih6 => exact ih1

theorem levelReach_inv :
    ∀ {v : RawVal} {ls : List RawVal}, LevelReach v ls →
      ∀ items : List RawVal, v = RawVal.seq items →
        (ls = items ∨
          ∃ line entries, RawVal.dict line entries ∈ items ∧
            (entries.any (fun e => isStatementKey e.1)) = true ∧
            ∃ k w, (k, w) ∈ entries ∧ isStatementKey k = true ∧ LevelReach w ls) := by
  intro v ls h
  induction h with
  | root =>
    intro items2 heq
    injection heq with h1
    subst h1
    exact Or.inl rfl
  | nested h1 h2 h3 h4 h5 h6 ih1 ih6 =>
    intro items2 heq
    rcases ih1 items2 heq with rfl | ⟨line1, entries1, hm, hs, k1, w1, hkw, hk1, hreach⟩
    · exact Or.inr ⟨_, _, h2, h3, _, _, h4, h5, h6⟩
    · exact Or.inr ⟨line1, entries1, hm, hs, k1, w1, hkw, hk1,
        LevelReach.nested hreach h2 h3 h4 h5 h6⟩

theorem sizeOf_val_lt_of_nested {items : List RawVal} {line : Nat}
    {entries : List (String × RawVal)} {k : String} {w : RawVal}
    (hm : RawVal.dict line entries ∈ items) (hkw : (k, w) ∈ entries) :
    sizeOf w < sizeOf (RawVal.seq items) := by
  have h1 : sizeOf (RawVal.dict line entries) < sizeOf items := List.sizeOf_lt_of_mem hm
  have h2 : sizeOf (k, w) < sizeOf entries := List.sizeOf_lt_of_mem hkw
  have h3 : sizeOf entries < sizeOf (RawVal.dict line entries) := by
    simp only [RawVal.dict.sizeOf_spec]; omega
  have h4 : sizeOf w < sizeOf (k, w) := by
    simp only [Prod.mk.sizeOf_spec]; omega
  have h5 : sizeOf items < sizeOf (RawVal.seq items) := by
    simp only [RawVal.seq.sizeOf_spec]; omega
  omega

theorem entriesDupB_iff (entries : List (String × RawVal)) :
    entriesDupB entries = true ↔
      ∃ k w, (k, w) ∈ entries ∧ isStatementKey k = true ∧ levelDupB w = true := by
  induction entries with
  | nil => simp [entriesDupB]
  | cons e rest ih =>
    rcases e with ⟨k, v⟩
    show ((isStatementKey k && levelDupB v) || entriesDupB rest) = true ↔ _
    rw [Bool.or_eq_true, Bool.and_eq_true, ih]
    constructor
    · rintro (⟨hk, hv⟩ | ⟨k1, w1, hm, hk1, hw1⟩)
      · exact ⟨k, v, List.mem_cons_self _ _, hk, hv⟩
      · exact ⟨k1, w1, List.mem_cons_of_mem _ hm, hk1, hw1⟩
    · rintro ⟨k1, w1, hm, hk1, hw1⟩
      rcases List.mem_cons.mp hm with heq | hm2
      · rw [Prod.mk.injEq] at heq
        obtain ⟨rfl, rfl⟩ := heq
        exact Or.inl ⟨hk1, hw1⟩
      · exact Or.inr ⟨k1, w1, hm2, hk1, hw1⟩

theorem itemsDupB_iff (items : List RawVal) :
    itemsDupB items = true ↔
      ∃ line entries, RawVal.dict line entries ∈ items ∧
        (entries.any (fun e => isStatementKey e.1)) = true ∧ entriesDupB entries = true := by
  induction items with
  | nil => simp [itemsDupB]
  | cons item rest ih =>
    cases item with
    | scalar s =>
      show itemsDupB rest = true ↔ _
      rw [ih]
      constructor
      · rintro ⟨l, e, hm, hs, hd⟩
        exact ⟨l, e, List.mem_cons_of_mem _ hm, hs, hd⟩
      · rintro ⟨l, e, hm, hs, hd⟩
        rcases List.mem_cons.mp hm with heq | hm2
        · exact RawVal.noConfusion heq
        · exact ⟨l, e, hm2, hs, hd⟩
    | seq xs =>
      show itemsDupB rest = true ↔ _
      rw [ih]
      constructor
      · rintro ⟨l, e, hm, hs, hd⟩
        exact ⟨l, e, List.mem_cons_of_mem _ hm, hs, hd⟩
      · rintro ⟨l, e, hm, hs, hd⟩
        rcases List.mem_cons.mp hm with heq | hm2
        · exact RawVal.noConfusion heq
        · exact ⟨l, e, hm2, hs, hd⟩
    | dict line entries =>
      show ((if entries.any (fun e => isStatementKey e.1) then entriesDupB entries else false) ||
        itemsDupB rest) = true ↔ _
      rw [Bool.or_eq_true, ih]
      by_cases hs : (entries.any (fun e => isStatementKey e.1)) = true
      · rw [if_pos hs]
        constructor
        · rintro (hd | ⟨l, e, hm, hs2, hd⟩)
          · exact ⟨line, entries, List.mem_cons_self _ _, hs, hd⟩
          · exact ⟨l, e, List.mem_cons_of_mem _ hm, hs2, hd⟩
        · rintro ⟨l, e, hm, hs2, hd⟩
          rcases List.mem_cons.mp hm with heq | hm2
          · injection heq with hl he
            subst hl
            subst he
            exact Or.inl hd
          · exact Or.inr ⟨l, e, hm2, hs2, hd⟩
      · rw [if_neg hs]
        constructor
        · rintro (hfalse | ⟨l, e, hm, hs2, hd⟩)
          · exact absurd hfalse (by simp)
          · exact ⟨l, e, List.mem_cons_of_mem _ hm, hs2, hd⟩
        · rintro ⟨l, e, hm, hs2, hd⟩
          rcases List.mem_cons.mp hm with heq | hm2
          · injection heq with hl he
            subst hl
            subst he
            exact absurd hs2 hs
          · exact Or.inr ⟨l, e, hm2, hs2, hd⟩

theorem levelDupB_iff :
    ∀ v : RawVal, levelDupB v = true ↔
      ∃ ls, LevelReach v ls ∧
        ∃ fk, 2 ≤ (featureKeysOfItems isStatementKey ls).count fk := by
  refine rawVal_strong_ind ?_
  intro v ih
  cases v with
  | scalar s =>
    show false = true ↔ _
    simp only [Bool.false_eq_true, false_iff]
    rintro ⟨ls, hr, _⟩
    rcases levelReach_is_seq hr with ⟨items, heq⟩
    exact RawVal.noConfusion heq
  | dict line entries =>
    show false = true ↔ _
    simp only [Bool.false_eq_true, false_iff]
    rintro ⟨ls, hr, _⟩
    rcases levelReach_is_seq hr with ⟨items, heq⟩
    exact RawVal.noConfusion heq
  | seq items =>
    show (anyRepeat [] (featureKeysOfItems isStatementKey items) || itemsDupB items) = true ↔ _
    rw [Bool.or_eq_true, itemsDupB_iff]
    have hAR : anyRepeat [] (featureKeysOfItems isStatementKey items) = true ↔
        ∃ fk, 2 ≤ (featureKeysOfItems isStatementKey items).count fk := by
      rw [anyRepeat_eq_true_iff]
      constructor
      · rintro (⟨k, _, hk⟩ | hnd)
        · exact absurd hk (List.not_mem_nil k)
        · rw [List.nodup_iff_count_le_one] at hnd
          push_neg at hnd
          rcases hnd with ⟨a, ha⟩
          exact ⟨a, by omega⟩
      · rintro ⟨fk, hfk⟩
        refine Or.inr ?_
        rw [List.nodup_iff_count_le_one]
        push_neg
        exact ⟨fk, by omega⟩
    constructor
    · rintro (har | ⟨l, e, hm, hs, hd⟩)
      · exact ⟨items, LevelReach.root, hAR.mp har⟩
      · rcases (entriesDupB_iff e).mp hd with ⟨k1, w1, hkw, hk1, hw1⟩
        rcases (ih w1 (sizeOf_val_lt_of_nested hm hkw)).mp hw1 with ⟨ls, hreach, hdup⟩
        exact ⟨ls, LevelReach.nested LevelReach.root hm hs hkw hk1 hreach, hdup⟩
    · rintro ⟨ls, hreach, hdup⟩
      rcases levelReach_inv hreach items rfl with rfl | ⟨l, e, hm, hs, k1, w1, hkw, hk1, hreach2⟩
      · exact Or.inl (hAR.mpr hdup)
      · exact Or.inr ⟨l, e, hm, hs, (entriesDupB_iff e).mpr
          ⟨k1, w1, hkw, hk1, (ih w1 (sizeOf_val_lt_of_nested hm hkw)).mpr ⟨ls, hreach2, hdup⟩⟩⟩

/-- C1 (amended): the duplicate-sibling-feature pass groups the items at
each visited nesting level of the raw parsed representation by their
normalized `"- key: value"` feature key and reports a violation exactly
when some feature key appears at least twice at one level — where an
item counts as a feature exactly when none of its keys CONTAINS one of
the combinator markers ("or", "and", "not", "optional", "some", scope
names, "call", " or more") as a substring (so keys such as `export`,
`import` or `operand` are skipped as statements too), and the traversal
recurses into the values held under such substring-matching keys.  On
the spec's concrete instances: siblings `string: a, string: a, string: b`
yield exactly one duplicate group for "a" with both line numbers listed
ascending and comma-joined; `string: a, string: b` yield none; and line
numbers arriving out of order (7 before 3) are emitted sorted ascending. -/
theorem duplicateFeatureUnderStatement_amended :
    (∀ features : RawVal, (DuplicateFeatureUnderStatement.checkRule features).1 = true ↔
      ∃ ls, LevelReach features ls ∧
        ∃ fk, 2 ≤ (featureKeysOfItems isStatementKey ls).count fk) ∧
    DuplicateFeatureUnderStatement.checkRule
      (RawVal.seq [RawVal.dict 2 [("string", RawVal.scalar "a")],
        RawVal.dict 3 [("string", RawVal.scalar "a")],
        RawVal.dict 4 [("string", RawVal.scalar "b")]]) =
      (true, "\n\tduplicate line: \"- string: a\"\t: line numbers: 2, 3") ∧
    DuplicateFeatureUnderStatement.checkRule
      (RawVal.seq [RawVal.dict 2 [("string", RawVal.scalar "a")],
        RawVal.dict 3 [("string", RawVal.scalar "b")]]) = (false, "") ∧
    DuplicateFeatureUnderStatement.checkRule
      (RawVal.seq [RawVal.dict 7 [("string", RawVal.scalar "a")],
        RawVal.dict 3 [("string", RawVal.scalar "a")]]) =
      (true, "\n\tduplicate line: \"- string: a\"\t: line numbers: 3, 7") := by
  refine ⟨?_, by decide, by decide, by decide⟩
  intro features
  rw [show (DuplicateFeatureUnderStatement.checkRule features).1 =
    (findDuplicates features (false, "")).1 from rfl, findDuplicates_fst features (false, ""),
    Bool.false_or]
  exact levelDupB_iff features

/-- C1 counterexample: two sibling `export` features with identical
values.  By the claim's reading, `export` is not one of the combinator
keys, so these are leaf features whose normalized key `- export: a`
appears twice at one level and a violation must be reported — but the
code classifies `export` as a statement (substring containment finds
`or` inside `export`), recurses into the scalar values and reports no
violation. -/
theorem duplicateFeatureUnderStatement_cex :
    (DuplicateFeatureUnderStatement.checkRule
      (RawVal.seq [RawVal.dict 2 [("export", RawVal.scalar "a")],
        RawVal.dict 3 [("export", RawVal.scalar "a")]])).1 = false ∧
    isListedCombinatorKey "export" = false ∧
    2 ≤ (featureKeysOfItems isListedCombinatorKey
      [RawVal.dict 2 [("export", RawVal.scalar "a")],
        RawVal.dict 3 [("export", RawVal.scalar "a")]]).count "- export: a" := by
  refine ⟨by decide, by decide, by decide⟩
